import Mathlib

/-!
Verification development for the Crux application-composition runtime.

The development shallowly embeds two parts of the code base:

* `lib/components/server/lib/validations.js` — the request-parameter
  validation functions (`validation.NUMBER`, `validation.BOOLEAN`, and the
  `default()` wrapper installed by `_init`).  JavaScript values that the
  validators inspect are modelled by `JSVal` (numbers as unbounded integers;
  IEEE float precision is out of scope), and the mutable `source` object by
  an association list `Obj` with JavaScript lookup semantics (a missing key
  reads as `undefined`).  In-place mutation is modelled by returning the
  updated object alongside the boolean verdict.

* the Component/Registry orchestration layer.  Its implementation file is
  not part of the sources available here (only its generated API
  documentation is), so the Registry is modelled from the specification:
  registration with duplicate-name/frozen errors, deferred method
  attachment, missing-dependency detection, three-colour depth-first cycle
  detection, and sequential execution in topological order (the spec allows
  any schedule that respects the dependency partial order; the sequential
  one is used here).  `initAll` models `registry#initialize`: it returns the
  event trace of component runs together with the list of callback
  invocations.

* `crux.util.extend` delegates to the external `node.extend` npm module,
  whose source is likewise absent; the deep merge is modelled from the
  specification's description (override wins, nested mappings merge
  recursively, arrays and scalars replace wholesale).
-/

/-- A JavaScript value as seen by the validators: `undefined`, a number
(modelled as an unbounded integer), a string, a boolean, or any other
value (object, array, null, function), which every claimed validator
rejects uniformly. -/
inductive JSVal where
  | undef
  | num (n : Int)
  | str (s : String)
  | bool (b : Bool)
  | other
  deriving DecidableEq, Repr

/-- A JavaScript object restricted to the keys the validators touch,
modelled as an association list. -/
abbrev Obj := List (String × JSVal)

/-- Reading `source[name]` — a missing key reads as `undefined`. -/
def Obj.get (o : Obj) (k : String) : JSVal :=
  match o.find? (fun p => p.1 = k) with
  | some p => p.2
  | none => JSVal.undef

/-- Writing `source[name] = v` — replaces the binding if the key is present,
otherwise adds it. -/
def Obj.set (o : Obj) (k : String) (v : JSVal) : Obj :=
  if o.any (fun p => p.1 = k) then
    o.map (fun p => if p.1 = k then (k, v) else p)
  else
    o ++ [(k, v)]

/-- The test performed by the regular expression `^\d+$` in
`validation.NUMBER`: at least one character, and every character a decimal
digit. -/
def isDigitString (s : String) : Bool :=
  !s.data.isEmpty && s.data.all (fun c => c.isDigit)

/-- The result of `parseInt` on a string of decimal digits. -/
def parseDigits (s : String) : Nat :=
  s.data.foldl (fun a c => a * 10 + (c.toNat - 48)) 0

namespace validation

/-- Embeds `validation.NUMBER` (validations.js lines 41–54): `undefined`
fails; a number passes unchanged; a string passes exactly when it matches
`^\d+$`, in which case the parsed integer is written back; everything else
fails.  (The `isNaN` guard of the source is unreachable after the regular
expression has matched and has no counterpart here.) -/
def NUMBER (name : String) (source : Obj) : Bool × Obj :=
  match Obj.get source name with
  | JSVal.undef => (false, source)
  | JSVal.num _ => (true, source)
  | JSVal.str s =>
    if isDigitString s then
      (true, Obj.set source name (JSVal.num (Int.ofNat (parseDigits s))))
    else (false, source)
  | _ => (false, source)

/-- Embeds `validation.BOOLEAN` (validations.js lines 154–181): `undefined`
fails; the numbers 1 and 0 are converted to `true`/`false`; the strings
"1"/"true" and "0"/"false" likewise; a boolean passes unchanged; everything
else fails. -/
def BOOLEAN (name : String) (source : Obj) : Bool × Obj :=
  match Obj.get source name with
  | JSVal.undef => (false, source)
  | JSVal.num n =>
    if n = 1 then (true, Obj.set source name (JSVal.bool true))
    else if n = 0 then (true, Obj.set source name (JSVal.bool false))
    else (false, source)
  | JSVal.str s =>
    if s = "1" ∨ s = "true" then (true, Obj.set source name (JSVal.bool true))
    else if s = "0" ∨ s = "false" then (true, Obj.set source name (JSVal.bool false))
    else (false, source)
  | JSVal.bool _ => (true, source)
  | _ => (false, source)

end validation

/-- Embeds the `DefaultValue` wrapper that `_init` (validations.js lines
221–256) installs as `validateFunc.default`: run the underlying validator;
if it failed, write the fallback value into the source and report success
anyway. -/
def defaultValidation (validateFunc : String → Obj → Bool × Obj) (d : JSVal)
    (name : String) (source : Obj) : Bool × Obj :=
  let r := validateFunc name source
  if r.1 then r else (true, Obj.set r.2 name d)


namespace Crux

/-- Modelled from the spec: a component configuration document
(`crux.util.extend` delegates to the external `node.extend` npm module,
whose source is not part of this repository).  A document is a scalar, an
array (kept opaque, since merging replaces arrays wholesale), or a nested
string-keyed mapping. -/
inductive Doc where
  | scalar (v : JSVal)
  | arr (vs : List JSVal)
  | node (entries : List (String × Doc))

/-- First binding for a key in a mapping's entry list. -/
def lookupMap : List (String × Doc) → String → Option Doc
  | [], _ => none
  | (k, v) :: rest, key => if k = key then some v else lookupMap rest key

mutual

/-- Modelled from the spec: deep merge of an override document into a
default document — nested mappings merge recursively, any other override
value (scalar or array) replaces the default wholesale. -/
def deepMerge : Doc → Doc → Doc
  | Doc.node d, Doc.node o => Doc.node (mergeMap d o)
  | _, o => o
termination_by _ o => (sizeOf o, 0)
decreasing_by
  simp_wf
  apply Prod.Lex.left
  omega

/-- Folds every override binding into the default entry list, in override
order. -/
def mergeMap : List (String × Doc) → List (String × Doc) → List (String × Doc)
  | d, [] => d
  | d, (k, v) :: rest => mergeMap (insertMerge d k v) rest
termination_by _ o => (sizeOf o, 0)
decreasing_by
  · simp_wf
    apply Prod.Lex.left
    omega
  · simp_wf
    apply Prod.Lex.left
    omega

/-- Installs a single override binding: an existing binding for the key is
deep-merged with the override value, a fresh key is appended. -/
def insertMerge : List (String × Doc) → String → Doc → List (String × Doc)
  | [], k, v => [(k, v)]
  | (k2, dv) :: rest, k, v =>
    if k2 = k then (k2, deepMerge dv v) :: rest
    else (k2, dv) :: insertMerge rest k v
termination_by d _ v => (sizeOf v + 1, sizeOf d)
decreasing_by
  · simp_wf
    apply Prod.Lex.left
    omega
  · simp_wf
    apply Prod.Lex.right
    omega

end

/-- Modelled from the spec: `component#extendConfig(overrides)` deep-merges
the caller-supplied overrides into the component's built-in defaults. -/
def extendConfig (defaults overrides : Doc) : Doc :=
  deepMerge defaults overrides

/-- Key lookup on a mapping document. -/
def lookupDoc : Doc → String → Option Doc
  | Doc.node es, k => lookupMap es k
  | _, _ => none

end Crux

namespace Crux

/-- Modelled from the spec: a `crux.Component` as the Registry sees it — its
unique name, its `requirements()` list of dependency names, whether its
asynchronous `run(callback)` reports an error (and which), and its
`attachments` map of injected methods (functions are identified by opaque
numeric ids). -/
structure Component where
  name : String
  requirements : List String
  runError : Option String
  attachments : List (String × Nat)
  deriving DecidableEq, Repr

/-- The names of the registered components. -/
def namesOf (g : List Component) : List String := g.map (fun c => c.name)

/-- Lookup behind `registry#get(name)`: the first component with the given
name. -/
def findComp (g : List Component) (n : String) : Option Component :=
  g.find? (fun c => c.name = n)

/-- The requirement names of the component registered under a name (empty
when the name is unknown). -/
def reqsOf (g : List Component) (n : String) : List String :=
  match findComp g n with
  | some c => c.requirements
  | none => []

/-- Number of component names not yet marked gray or black — the
termination measure of the depth-first traversal. -/
def unmarkedCount (g : List Component) (gray black : List String) : Nat :=
  (namesOf g).countP (fun m => !(gray.contains m) && !(black.contains m))

/-- Modelled from the spec: step 3 of `initialize` — depth-first traversal
with three-colour marking (`gray` is the in-progress stack, `black` the
finished set; unvisited nodes are in neither).  A back edge to a gray node
reports the cycle members (the gray stack back to the revisited node); on
success the black list is a reverse topological order.  The returned
subtype records that the black set only grows, which also bounds the
recursion. -/
def dfsV (g : List Component) (ns gray black : List String) :
    Except (List String) {b : List String // ∀ x ∈ black, x ∈ b} :=
  match ns with
  | [] => Except.ok ⟨black, fun _ hx => hx⟩
  | n :: rest =>
    if _hb : black.contains n then
      dfsV g rest gray black
    else if _hg : gray.contains n then
      Except.error (n :: gray.takeWhile (fun m => m != n))
    else
      match dfsV g (reqsOf g n) (n :: gray) black with
      | Except.error ms => Except.error ms
      | Except.ok ⟨b1, h1⟩ =>
        match dfsV g rest gray (n :: b1) with
        | Except.error ms => Except.error ms
        | Except.ok ⟨b2, h2⟩ =>
          Except.ok ⟨b2, fun x hx => h2 x (List.mem_cons_of_mem n (h1 x hx))⟩
termination_by (unmarkedCount g gray black, ns.length)
decreasing_by
  · exact Prod.Lex.right _ (by simp)
  · have countP_imp : ∀ (l : List String) (p q : String → Bool),
        (∀ a ∈ l, p a = true → q a = true) → l.countP p ≤ l.countP q := by
      intro l p q hpq
      induction l with
      | nil => simp
      | cons a t ihl =>
        rw [List.countP_cons, List.countP_cons]
        have hrec := ihl (fun x hx hpx => hpq x (List.mem_cons_of_mem a hx) hpx)
        by_cases hpa : p a = true
        · have hqa := hpq a (List.mem_cons_self a t) hpa
          simp [hpa, hqa]
          omega
        · by_cases hqa : q a = true <;> simp [hpa, hqa] <;> omega
    by_cases hmem : n ∈ namesOf g
    · apply Prod.Lex.left
      have hstr : ∀ (l : List String) (p q : String → Bool) (x : String),
          (∀ a ∈ l, p a = true → q a = true) → x ∈ l → p x = false → q x = true →
          l.countP p < l.countP q := by
        intro l p q x hpq hx hpx hqx
        obtain ⟨l1, l2, rfl⟩ := List.append_of_mem hx
        rw [List.countP_append, List.countP_append, List.countP_cons, List.countP_cons]
        have hle1 : l1.countP p ≤ l1.countP q :=
          countP_imp l1 p q (fun y hy => hpq y (by simp [hy]))
        have hle2 : l2.countP p ≤ l2.countP q :=
          countP_imp l2 p q (fun y hy => hpq y (by simp [hy]))
        simp [hpx, hqx]
        omega
      apply hstr _ _ _ n
      · intro a _ hpa
        simp only [List.contains_cons, Bool.not_or, Bool.and_eq_true,
          Bool.not_eq_true'] at hpa ⊢
        exact ⟨hpa.1.2, hpa.2⟩
      · exact hmem
      · simp [List.contains_cons]
      · simp only [Bool.and_eq_true, Bool.not_eq_true']
        constructor
        · exact Bool.not_eq_true _ ▸ (by simpa using _hg)
        · exact Bool.not_eq_true _ ▸ (by simpa using _hb)
    · have heq : unmarkedCount g (n :: gray) black = unmarkedCount g gray black := by
        have hcg : ∀ (l : List String), n ∉ l →
            l.countP (fun m => !((n :: gray).contains m) && !(black.contains m)) =
            l.countP (fun m => !(gray.contains m) && !(black.contains m)) := by
          intro l hnl
          induction l with
          | nil => simp
          | cons a t ihl =>
            rw [List.countP_cons, List.countP_cons]
            have hat : n ∉ t := fun h => hnl (List.mem_cons_of_mem a h)
            have han : a ≠ n := fun h => hnl (h ▸ List.mem_cons_self a t)
            rw [ihl hat]
            have : ((n :: gray).contains a) = (gray.contains a) := by
              simp [List.contains_cons, fun h : a = n => han h]
            rw [this]
        unfold unmarkedCount
        exact hcg _ hmem
      rw [heq]
      apply Prod.Lex.right
      have hreq : reqsOf g n = [] := by
        have hfind : findComp g n = none := by
          unfold findComp
          rw [List.find?_eq_none]
          intro c hc
          simp only [decide_eq_true_eq]
          exact fun h => hmem (List.mem_map.mpr ⟨c, hc, h⟩)
        simp [reqsOf, hfind]
      simp [hreq]
  · have countP_imp : ∀ (l : List String) (p q : String → Bool),
        (∀ a ∈ l, p a = true → q a = true) → l.countP p ≤ l.countP q := by
      intro l p q hpq
      induction l with
      | nil => simp
      | cons a t ihl =>
        rw [List.countP_cons, List.countP_cons]
        have hrec := ihl (fun x hx hpx => hpq x (List.mem_cons_of_mem a hx) hpx)
        by_cases hpa : p a = true
        · have hqa := hpq a (List.mem_cons_self a t) hpa
          simp [hpa, hqa]
          omega
        · by_cases hqa : q a = true <;> simp [hpa, hqa] <;> omega
    have hle : unmarkedCount g gray (n :: b1) ≤ unmarkedCount g gray black := by
      unfold unmarkedCount
      apply countP_imp
      intro a _ hpa
      simp only [Bool.and_eq_true, Bool.not_eq_true'] at hpa ⊢
      refine ⟨hpa.1, ?_⟩
      by_cases hab : black.contains a = true
      · have : a ∈ (n :: b1) := List.mem_cons_of_mem n (h1 a (by simpa using hab))
        have : (n :: b1).contains a = true := by simpa using this
        rw [this] at hpa
        exact absurd hpa.2 (by simp)
      · simpa using hab
    rcases Nat.lt_or_ge (unmarkedCount g gray (n :: b1)) (unmarkedCount g gray black) with hlt | hge
    · exact Prod.Lex.left _ _ hlt
    · have heq : unmarkedCount g gray (n :: b1) = unmarkedCount g gray black :=
        Nat.le_antisymm hle hge
      rw [heq]
      exact Prod.Lex.right _ (by simp)

/-- Every entry of the list has all its requirements further down the list
(the shape of the black list produced by the traversal). -/
def TopoSorted (g : List Component) : List String → Prop
  | [] => True
  | n :: t => (∀ r ∈ reqsOf g n, r ∈ t) ∧ TopoSorted g t

/-- Dependency edge: `DepEdge g x y` holds when component `y` directly requires `x`. -/
def DepEdge (g : List Component) (x y : String) : Prop := x ∈ reqsOf g y

/-- The dependency graph contains a cycle: some name transitively requires
itself. -/
def HasCycle (g : List Component) : Prop :=
  ∃ n, Relation.TransGen (DepEdge g) n n

/-- Every requirement of every registered component is itself registered. -/
def NoMissing (g : List Component) : Prop :=
  ∀ c ∈ g, ∀ r ∈ c.requirements, r ∈ namesOf g

/-- The listed names form an actual cycle: consecutive members are joined
by dependency edges and the last loops back to the first. -/
def IsCycleList (g : List Component) (ms : List String) : Prop :=
  ms ≠ [] ∧ List.Chain' (DepEdge g) (ms ++ [ms.headD ""])

/-- Traversal invariant: every node in the worklist is a requirement of the
top of the gray stack. -/
def Linked (g : List Component) (ns gray : List String) : Prop :=
  ∀ x ∈ ns, ∀ hd tl, gray = hd :: tl → DepEdge g x hd

/-- Cycle detection over every registered component. -/
def dfsAll (g : List Component) :
    Except (List String) {b : List String // ∀ x ∈ ([] : List String), x ∈ b} :=
  dfsV g (namesOf g) [] []

/-- A checkable certificate of acyclicity: a rank function under which
every requirement has strictly smaller rank than its dependent. -/
def rankOk (g : List Component) (f : String → Nat) : Bool :=
  g.all fun c => c.requirements.all fun r => f r < f c.name

/-- Modelled from the spec: step 2 of `initialize` — the first component
whose `requirements()` mention a name that is not registered, together
with that missing name. -/
def checkMissing (g : List Component) : Option (String × String) :=
  g.findSome? fun c => c.requirements.findSome? fun r =>
    if r ∈ namesOf g then none else some (c.name, r)

/-- Observable run events of `initialize`: a component run starting,
completing successfully, or failing with an error message. -/
inductive Event where
  | runStart (n : String)
  | runOk (n : String)
  | runFail (n : String) (e : String)
  deriving DecidableEq, Repr

/-- The errors `initialize` can deliver to its callback. -/
inductive InitErr where
  | missingDep (comp dep : String)
  | cycleErr (members : List String)
  | runErr (comp : String) (e : String)
  deriving DecidableEq, Repr

/-- Modelled from the spec: step 5 of `initialize` in its sequential form —
run the components in the given order, emitting a start event and a
completion or failure event for each; on the first failure the remaining
unstarted components are abandoned and the failure is returned. -/
def execute (g : List Component) : List String → List Event × Option (String × String)
  | [] => ([], none)
  | n :: rest =>
    match findComp g n with
    | none => execute g rest
    | some c =>
      match c.runError with
      | none =>
        let r := execute g rest
        (Event.runStart n :: Event.runOk n :: r.1, r.2)
      | some e => ([Event.runStart n, Event.runFail n e], some (n, e))

/-- An execution order is valid relative to already-finished names: each
entry only requires names in `done` or earlier entries. -/
def GoodOrdAux (g : List Component) : List String → List String → Prop
  | _, [] => True
  | done, n :: rest => (∀ r ∈ reqsOf g n, r ∈ done) ∧ GoodOrdAux g (n :: done) rest

/-- Event `e1` occurs strictly before event `e2` in the trace. -/
def precedes (e1 e2 : Event) (tr : List Event) : Prop :=
  ∃ l1 l2 l3, tr = l1 ++ e1 :: l2 ++ e2 :: l3

/-- Association-list update used for attachment maps. -/
def setKV (l : List (String × Nat)) (k : String) (v : Nat) : List (String × Nat) :=
  if l.any (fun p => p.1 = k) then
    l.map (fun p => if p.1 = k then (k, v) else p)
  else l ++ [(k, v)]

/-- Association-list lookup used for attachment maps. -/
def lookupKV : List (String × Nat) → String → Option Nat
  | [], _ => none
  | (k, v) :: rest, key => if k = key then some v else lookupKV rest key

/-- Modelled from the spec: `component#attach(methodName, fn)` — records
the function under the method name. -/
def Component.attach (c : Component) (m : String) (fn : Nat) : Component :=
  { c with attachments := setKV c.attachments m fn }

/-- Modelled from the spec: the `crux.Registry` state — the ordered set of
registered components, the queue of pending attachments, and whether
`initialize` has started (the graph is then frozen). -/
structure Registry where
  components : List Component
  pendingAttachments : List (List String × String × Nat)
  frozen : Bool
  deriving DecidableEq, Repr

/-- The freshly constructed registry. -/
def emptyRegistry : Registry :=
  { components := [], pendingAttachments := [], frozen := false }

/-- The errors `register` can raise. -/
inductive RegError where
  | duplicateName (n : String)
  | frozen
  deriving DecidableEq, Repr

/-- Modelled from the spec: `registry#register(component)` — fails when the
graph is frozen or the name is already present; otherwise appends the
component, first resolving every queued attachment that targets it (in
queue order) and removing the resolved targets from the queue. -/
def register (R : Registry) (c : Component) : Except RegError Registry :=
  if R.frozen then Except.error RegError.frozen
  else if R.components.any (fun c2 => c2.name = c.name) then
    Except.error (RegError.duplicateName c.name)
  else
    Except.ok
      { components := R.components ++
          [(R.pendingAttachments.filter (fun p => p.1.contains c.name)).foldl
            (fun acc p => acc.attach p.2.1 p.2.2) c],
        pendingAttachments :=
          (R.pendingAttachments.map
            (fun p => (p.1.filter (fun t => t ≠ c.name), p.2.1, p.2.2))).filter
            (fun p => !p.1.isEmpty),
        frozen := R.frozen }

/-- Modelled from the spec: `registry#attachTo(names, methodName, fn)` —
attaches immediately to every named component that already exists, and
queues the remaining target names in `pendingAttachments`. -/
def attachTo (R : Registry) (targets : List String) (m : String) (fn : Nat) :
    Registry :=
  { components := R.components.map
      (fun c => if targets.contains c.name then c.attach m fn else c),
    pendingAttachments :=
      if (targets.filter
            (fun t => !(R.components.any (fun c => c.name = t)))).isEmpty then
        R.pendingAttachments
      else
        R.pendingAttachments ++
          [(targets.filter
              (fun t => !(R.components.any (fun c => c.name = t))), m, fn)],
    frozen := R.frozen }

/-- Modelled from the spec: the point at which `initialize` begins and the
component set becomes frozen. -/
def freezeRegistry (R : Registry) : Registry :=
  { R with frozen := true }

/-- The state transitions a Registry can undergo: a successful or failed
`register`, an `attachTo`, or the freeze at the start of `initialize`. -/
inductive Step : Registry → Registry → Prop
  | registerOk (R : Registry) (c : Component) (R2 : Registry) :
      register R c = Except.ok R2 → Step R R2
  | registerFail (R : Registry) (c : Component) (e : RegError) :
      register R c = Except.error e → Step R R
  | attachStep (R : Registry) (ts : List String) (m : String) (fn : Nat) :
      Step R (attachTo R ts m fn)
  | freezeStep (R : Registry) : Step R (freezeRegistry R)

/-- Registry states reachable from the empty registry. -/
def Reachable (R : Registry) : Prop :=
  Relation.ReflTransGen Step emptyRegistry R

/-- Modelled from the spec: `registry#initialize(callback)` (the
implementation file is not among the available sources; only its generated
documentation is).  Returns the event trace of component runs and the list
of callback invocations: a missing dependency or a cycle aborts before any
run, otherwise the components run in topological order and the callback
receives the first run failure or, when all succeed, no error. -/
def initAll (R : Registry) : List Event × List (Option InitErr) :=
  match checkMissing R.components with
  | some (cn, rn) => ([], [some (InitErr.missingDep cn rn)])
  | none =>
    match dfsAll R.components with
    | Except.error ms => ([], [some (InitErr.cycleErr ms)])
    | Except.ok b =>
      ((execute R.components b.val.reverse).1,
        [match (execute R.components b.val.reverse).2 with
         | some (cn, e) => some (InitErr.runErr cn e)
         | none => none])

/-- A registry whose single component fails its run. -/
def sampleFailing : Registry :=
  { components :=
      [{ name := "a", requirements := [], runError := some "boom",
         attachments := [] }],
    pendingAttachments := [], frozen := false }

/-- The spec's db/cache/api scenario. -/
def sampleAcyclic : Registry :=
  { components :=
      [{ name := "db", requirements := [], runError := none, attachments := [] },
       { name := "cache", requirements := ["db"], runError := none,
         attachments := [] },
       { name := "api", requirements := ["db", "cache"], runError := none,
         attachments := [] }],
    pendingAttachments := [], frozen := false }

/-- The spec's two-component cycle scenario. -/
def sampleCyclic : Registry :=
  { components :=
      [{ name := "a", requirements := ["b"], runError := none,
         attachments := [] },
       { name := "b", requirements := ["a"], runError := none,
         attachments := [] }],
    pendingAttachments := [], frozen := false }

/-- The spec's missing-dependency scenario (`a` requires `ghost`). -/
def sampleMissing : Registry :=
  { components :=
      [{ name := "a", requirements := ["ghost"], runError := none,
         attachments := [] }],
    pendingAttachments := [], frozen := false }

/-- A registry with both a cycle and a missing dependency. -/
def sampleBoth : Registry :=
  { components :=
      [{ name := "a", requirements := ["b", "ghost"], runError := none,
         attachments := [] },
       { name := "b", requirements := ["a"], runError := none,
         attachments := [] }],
    pendingAttachments := [], frozen := false }

/-- A plain component named "x". -/
def sampleXComp : Component :=
  { name := "x", requirements := [], runError := none, attachments := [] }

/-- A registry holding only `sampleXComp`. -/
def sampleAttach : Registry :=
  { components := [sampleXComp], pendingAttachments := [], frozen := false }

end Crux

/-- Sanity check: `NUMBER` accepts the digit string and converts it. -/
theorem NUMBER_example :
    validation.NUMBER "id" [("id", JSVal.str "12")] =
      (true, [("id", JSVal.num 12)]) := by decide

/-- C8: `validation.NUMBER name source` returns `true` exactly when
`source[name]` is a number or a nonempty all-digit string; on an accepted
digit string it writes back the parsed integer, and whenever it returns
`false` the source object is left unchanged. -/
theorem NUMBER_spec (name : String) (source : Obj) :
    ((validation.NUMBER name source).1 = true ↔
      (∃ n : Int, Obj.get source name = JSVal.num n) ∨
      (∃ s : String, Obj.get source name = JSVal.str s ∧
        s.data ≠ [] ∧ ∀ c ∈ s.data, c.isDigit)) ∧
    (∀ s : String, Obj.get source name = JSVal.str s → s.data ≠ [] →
      (∀ c ∈ s.data, c.isDigit) →
      (validation.NUMBER name source).2 =
        Obj.set source name (JSVal.num (Int.ofNat (parseDigits s)))) ∧
    ((validation.NUMBER name source).1 = false →
      (validation.NUMBER name source).2 = source) := by
  have hbridge : ∀ s : String,
      isDigitString s = true ↔ (s.data ≠ [] ∧ ∀ c ∈ s.data, c.isDigit) := by
    intro s
    simp [isDigitString, List.isEmpty_iff, List.all_eq_true]
  cases hv : Obj.get source name with
  | undef => simp [validation.NUMBER, hv]
  | num n => simp [validation.NUMBER, hv]
  | bool b => simp [validation.NUMBER, hv]
  | other => simp [validation.NUMBER, hv]
  | str s =>
    by_cases hd : isDigitString s = true
    · have hds := (hbridge s).mp hd
      refine ⟨?_, ?_, ?_⟩
      · simp only [validation.NUMBER, hv, hd, if_true]
        constructor
        · intro _
          exact Or.inr ⟨s, rfl, hds.1, hds.2⟩
        · intro _; trivial
      · intro s' hs' _ _
        cases hs'
        simp [validation.NUMBER, hv, hd]
      · intro hfalse
        simp [validation.NUMBER, hv, hd] at hfalse
    · have hnd : ¬(s.data ≠ [] ∧ ∀ c ∈ s.data, c.isDigit) := fun hc =>
        hd ((hbridge s).mpr hc)
      refine ⟨?_, ?_, ?_⟩
      · simp only [validation.NUMBER, hv, hd, if_false, Bool.false_eq_true,
          false_iff]
        rintro (⟨n, hn⟩ | ⟨s', hs', h1, h2⟩)
        · cases hn
        · cases hs'
          exact hnd ⟨h1, h2⟩
      · intro s' hs' h1 h2
        cases hs'
        exact absurd ⟨h1, h2⟩ hnd
      · intro _
        simp [validation.NUMBER, hv, hd]

/-- C8 witness: the theorem applied to a concrete source holding the digit
string "12". -/
theorem NUMBER_spec_witness :
    (Obj.get [("id", JSVal.str "12")] "id" = JSVal.str "12" ∧
      ("12" : String).data ≠ [] ∧ ∀ c ∈ ("12" : String).data, c.isDigit) ∧
    (validation.NUMBER "id" [("id", JSVal.str "12")]).2 =
      Obj.set [("id", JSVal.str "12")] "id"
        (JSVal.num (Int.ofNat (parseDigits "12"))) :=
  ⟨by decide,
    (NUMBER_spec "id" [("id", JSVal.str "12")]).2.1 "12" (by decide)
      (by decide) (by decide)⟩

/-- C9: `validation.BOOLEAN name source` returns `true` exactly when
`source[name]` is a boolean, the number 1 or 0, or one of the strings "1",
"0", "true", "false"; an accepted numeric or string form is replaced in
place by the corresponding boolean, and a plain boolean is left as is. -/
theorem BOOLEAN_spec (name : String) (source : Obj) :
    ((validation.BOOLEAN name source).1 = true ↔
      (∃ b : Bool, Obj.get source name = JSVal.bool b) ∨
      Obj.get source name = JSVal.num 1 ∨
      Obj.get source name = JSVal.num 0 ∨
      Obj.get source name = JSVal.str "1" ∨
      Obj.get source name = JSVal.str "0" ∨
      Obj.get source name = JSVal.str "true" ∨
      Obj.get source name = JSVal.str "false") ∧
    ((Obj.get source name = JSVal.num 1 ∨
        Obj.get source name = JSVal.str "1" ∨
        Obj.get source name = JSVal.str "true") →
      (validation.BOOLEAN name source).2 =
        Obj.set source name (JSVal.bool true)) ∧
    ((Obj.get source name = JSVal.num 0 ∨
        Obj.get source name = JSVal.str "0" ∨
        Obj.get source name = JSVal.str "false") →
      (validation.BOOLEAN name source).2 =
        Obj.set source name (JSVal.bool false)) ∧
    (∀ b : Bool, Obj.get source name = JSVal.bool b →
      (validation.BOOLEAN name source).2 = source) := by
  cases hv : Obj.get source name with
  | undef => simp [validation.BOOLEAN, hv]
  | bool b => simp [validation.BOOLEAN, hv]
  | other => simp [validation.BOOLEAN, hv]
  | num n =>
    by_cases h1 : n = 1
    · subst h1; simp [validation.BOOLEAN, hv]
    · by_cases h0 : n = 0
      · subst h0; simp [validation.BOOLEAN, hv]
      · simp [validation.BOOLEAN, hv, h1, h0]
  | str s =>
    by_cases ht : s = "1" ∨ s = "true"
    · refine ⟨?_, ?_, ?_, ?_⟩
      · simp only [validation.BOOLEAN, hv, ht, if_true]
        rcases ht with rfl | rfl <;> simp
      · intro _; simp [validation.BOOLEAN, hv, ht]
      · rintro (h | h | h) <;> simp_all
      · intro b hb; cases hb
    · by_cases hf : s = "0" ∨ s = "false"
      · refine ⟨?_, ?_, ?_, ?_⟩
        · simp only [validation.BOOLEAN, hv, ht, hf, if_false, if_true]
          rcases hf with rfl | rfl <;> simp
        · rintro (h | h | h) <;> simp_all
        · intro _; simp [validation.BOOLEAN, hv, ht, hf]
        · intro b hb; cases hb
      · have hs1 : s ≠ "1" := fun h => ht (Or.inl h)
        have hst : s ≠ "true" := fun h => ht (Or.inr h)
        have hs0 : s ≠ "0" := fun h => hf (Or.inl h)
        have hsf : s ≠ "false" := fun h => hf (Or.inr h)
        refine ⟨?_, ?_, ?_, ?_⟩
        · simp [validation.BOOLEAN, hv, ht, hf, hs1, hst, hs0, hsf]
        · rintro (h | h | h) <;> cases h <;> simp_all
        · rintro (h | h | h) <;> cases h <;> simp_all
        · intro b hb; cases hb

/-- C9 witness: the theorem applied to a concrete source holding the
string "true". -/
theorem BOOLEAN_spec_witness :
    (Obj.get [("flag", JSVal.str "true")] "flag" = JSVal.str "true") ∧
    (validation.BOOLEAN "flag" [("flag", JSVal.str "true")]).2 =
      Obj.set [("flag", JSVal.str "true")] "flag" (JSVal.bool true) :=
  ⟨by decide,
    (BOOLEAN_spec "flag" [("flag", JSVal.str "true")]).2.1
      (Or.inr (Or.inr (by decide)))⟩

/-- C10: the `default(d)` wrapper always reports success: when the wrapped
validator succeeds the source is whatever the validator produced, and when
it fails the fallback value `d` is written under `name`. -/
theorem default_wrapper_spec (V : String → Obj → Bool × Obj) (d : JSVal)
    (name : String) (source : Obj) :
    (defaultValidation V d name source).1 = true ∧
    (defaultValidation V d name source).2 =
      (if (V name source).1 then (V name source).2
       else Obj.set (V name source).2 name d) := by
  unfold defaultValidation
  by_cases h : (V name source).1
  · simp [h]
  · simp [h]


namespace Crux

theorem lookupMap_eq_none_of_not_mem (o : List (String × Doc)) (key : String)
    (h : key ∉ o.map Prod.fst) : lookupMap o key = none := by
  induction o with
  | nil => rfl
  | cons p rest ih =>
    obtain ⟨k2, dv⟩ := p
    simp only [List.map_cons, List.mem_cons] at h
    push_neg at h
    simp only [lookupMap]
    rw [if_neg (fun hk => h.1 (hk.symm))]
    exact ih h.2

theorem lookupMap_insertMerge (d : List (String × Doc)) (k : String) (v : Doc)
    (key : String) :
    lookupMap (insertMerge d k v) key =
      if key = k then
        (match lookupMap d k with
         | some dv => some (deepMerge dv v)
         | none => some v)
      else lookupMap d key := by
  induction d with
  | nil =>
    by_cases h : key = k
    · subst h
      simp [insertMerge, lookupMap]
    · have h' : ¬(k = key) := fun hk => h hk.symm
      simp [insertMerge, lookupMap, h, h']
  | cons p rest ih =>
    obtain ⟨k2, dv⟩ := p
    by_cases h2 : k2 = k
    · subst h2
      by_cases hk : key = k2
      · subst hk
        simp [insertMerge, lookupMap]
      · have hk' : ¬(k2 = key) := fun h => hk h.symm
        simp [insertMerge, lookupMap, hk, hk']
    · by_cases hk2 : k2 = key
      · subst hk2
        simp [insertMerge, lookupMap, h2]
      · simp [insertMerge, lookupMap, h2, hk2, ih]

theorem lookupMap_mergeMap (o : List (String × Doc)) :
    ∀ d key, (o.map Prod.fst).Nodup →
      lookupMap (mergeMap d o) key =
        (match lookupMap d key, lookupMap o key with
         | some dv, some ov => some (deepMerge dv ov)
         | some dv, none => some dv
         | none, some ov => some ov
         | none, none => none) := by
  induction o with
  | nil =>
    intro d key _
    simp only [mergeMap, lookupMap]
    cases lookupMap d key <;> rfl
  | cons p rest ih =>
    intro d key hnd
    obtain ⟨k, v⟩ := p
    simp only [List.map_cons, List.nodup_cons] at hnd
    rw [mergeMap]
    rw [ih (insertMerge d k v) key hnd.2]
    by_cases hk : key = k
    · subst hk
      have hrest : lookupMap rest key = none :=
        lookupMap_eq_none_of_not_mem rest key hnd.1
      rw [hrest, lookupMap_insertMerge]
      rw [if_pos rfl]
      simp only [lookupMap, if_pos rfl]
      cases lookupMap d key <;> rfl
    · rw [lookupMap_insertMerge, if_neg hk]
      simp only [lookupMap]
      rw [if_neg (fun h : k = key => hk h.symm)]

/-- C7: `extendConfig` merges overrides into the defaults by deep merge —
for mapping documents the merged binding of every key is the default's
binding when the key is absent from the overrides, the override's binding
when absent from the defaults, and the recursive deep merge when both are
present; an override scalar or array replaces the default wholesale, so on
such a conflict the override wins.  (Modelled from the spec: the merge is
performed by the external `node.extend` module, whose source is not in the
repository.) -/
theorem extendConfig_deep_merge (d o : List (String × Doc))
    (hnd : (o.map Prod.fst).Nodup) :
    (∀ key, lookupDoc (extendConfig (Doc.node d) (Doc.node o)) key =
      (match lookupMap d key, lookupMap o key with
       | some dv, some ov => some (deepMerge dv ov)
       | some dv, none => some dv
       | none, some ov => some ov
       | none, none => none)) ∧
    (∀ dd : Doc, ∀ v : JSVal, deepMerge dd (Doc.scalar v) = Doc.scalar v) ∧
    (∀ dd : Doc, ∀ vs : List JSVal, deepMerge dd (Doc.arr vs) = Doc.arr vs) := by
  refine ⟨?_, ?_, ?_⟩
  · intro key
    show lookupDoc (deepMerge (Doc.node d) (Doc.node o)) key = _
    rw [deepMerge]
    show lookupMap (mergeMap d o) key = _
    exact lookupMap_mergeMap o d key hnd
  · intro dd v
    cases dd <;> simp [deepMerge]
  · intro dd vs
    cases dd <;> simp [deepMerge]

end Crux

/-- C7 witness: the theorem applied to concrete default and override
documents (default keys "host" and "opts", overrides "opts" and "port"). -/
theorem extendConfig_deep_merge_witness :
    (([("opts", Crux.Doc.node [("deep", Crux.Doc.scalar (JSVal.num 2))]),
       ("port", Crux.Doc.scalar (JSVal.num 80))].map Prod.fst).Nodup ∧
      Crux.lookupDoc
        (Crux.extendConfig
          (Crux.Doc.node
            [("host", Crux.Doc.scalar (JSVal.str "localhost")),
             ("opts", Crux.Doc.node [("keep", Crux.Doc.scalar (JSVal.bool true))])])
          (Crux.Doc.node
            [("opts", Crux.Doc.node [("deep", Crux.Doc.scalar (JSVal.num 2))]),
             ("port", Crux.Doc.scalar (JSVal.num 80))])) "host" =
        some (Crux.Doc.scalar (JSVal.str "localhost"))) := by
  have h := Crux.extendConfig_deep_merge
    [("host", Crux.Doc.scalar (JSVal.str "localhost")),
     ("opts", Crux.Doc.node [("keep", Crux.Doc.scalar (JSVal.bool true))])]
    [("opts", Crux.Doc.node [("deep", Crux.Doc.scalar (JSVal.num 2))]),
     ("port", Crux.Doc.scalar (JSVal.num 80))]
    (by decide)
  refine ⟨by decide, ?_⟩
  rw [h.1 "host"]
  simp [Crux.lookupMap]

namespace Crux

theorem dfsV_ok_mem (g : List Component) (ns gray black : List String) :
    ∀ (b : {b : List String // ∀ x ∈ black, x ∈ b}),
    dfsV g ns gray black = Except.ok b →
    ∀ x ∈ ns, x ∈ b.val := by
  induction ns, gray, black using dfsV.induct g with
  | case1 gray black =>
    intro b hok x hx
    cases hx
  | case2 gray black n rest hb ih =>
    intro b hok x hx
    rw [dfsV] at hok
    simp only [hb, dite_true] at hok
    rcases List.mem_cons.mp hx with rfl | hmem
    · exact b.property x (by simpa using hb)
    · exact ih b hok x hmem
  | case3 gray black n rest hb hg =>
    intro b hok
    rw [dfsV] at hok
    simp only [hb, hg] at hok
    simp at hok
  | case4 gray black n rest hb hg ms herr ih =>
    intro b hok
    rw [dfsV] at hok
    simp only [hb, hg, herr] at hok
    simp at hok
  | case5 gray black n rest hb hg b1 h1 hok1 ms herr ih1 ih2 =>
    intro b hok
    rw [dfsV] at hok
    simp only [hb, hg, hok1, herr] at hok
    simp at hok
  | case6 gray black n rest hb hg b1 h1 hok1 b2 h2 hok2 ih1 ih2 =>
    intro b hok
    obtain ⟨bv, bprop⟩ := b
    rw [dfsV] at hok
    simp only [hb, hg, hok1, hok2] at hok
    simp at hok
    subst hok
    intro x hx
    rcases List.mem_cons.mp hx with rfl | hmem
    · exact h2 x (List.mem_cons_self x b1)
    · exact ih2 ⟨b2, h2⟩ hok2 x hmem

theorem dfsV_ok_topo (g : List Component) (ns gray black : List String) :
    ∀ (b : {b : List String // ∀ x ∈ black, x ∈ b}),
    dfsV g ns gray black = Except.ok b →
    TopoSorted g black → TopoSorted g b.val := by
  induction ns, gray, black using dfsV.induct g with
  | case1 gray black =>
    intro b hok ht
    obtain ⟨bv, bprop⟩ := b
    rw [dfsV] at hok
    simp at hok
    subst hok
    exact ht
  | case2 gray black n rest hb ih =>
    intro b hok ht
    rw [dfsV] at hok
    simp only [hb, dite_true] at hok
    exact ih b hok ht
  | case3 gray black n rest hb hg =>
    intro b hok ht
    rw [dfsV] at hok
    simp only [hb, hg] at hok
    simp at hok
  | case4 gray black n rest hb hg ms herr ih =>
    intro b hok ht
    rw [dfsV] at hok
    simp only [hb, hg, herr] at hok
    simp at hok
  | case5 gray black n rest hb hg b1 h1 hok1 ms herr ih1 ih2 =>
    intro b hok ht
    rw [dfsV] at hok
    simp only [hb, hg, hok1, herr] at hok
    simp at hok
  | case6 gray black n rest hb hg b1 h1 hok1 b2 h2 hok2 ih1 ih2 =>
    intro b hok ht
    obtain ⟨bv, bprop⟩ := b
    rw [dfsV] at hok
    simp only [hb, hg, hok1, hok2] at hok
    simp at hok
    subst hok
    have ht1 : TopoSorted g b1 := ih1 ⟨b1, h1⟩ hok1 ht
    have hreqs : ∀ x ∈ reqsOf g n, x ∈ b1 :=
      dfsV_ok_mem g (reqsOf g n) (n :: gray) black ⟨b1, h1⟩ hok1
    have ht2 : TopoSorted g (n :: b1) := ⟨hreqs, ht1⟩
    exact ih2 ⟨b2, h2⟩ hok2 ht2

theorem dfsV_ok_nodup (g : List Component) (ns gray black : List String) :
    ∀ (b : {b : List String // ∀ x ∈ black, x ∈ b}),
    dfsV g ns gray black = Except.ok b →
    black.Nodup → (∀ x ∈ gray, x ∉ black) →
    b.val.Nodup ∧ ∀ x ∈ gray, x ∉ b.val := by
  induction ns, gray, black using dfsV.induct g with
  | case1 gray black =>
    intro b hok hnd hdis
    obtain ⟨bv, bprop⟩ := b
    rw [dfsV] at hok
    simp at hok
    subst hok
    exact ⟨hnd, hdis⟩
  | case2 gray black n rest hb ih =>
    intro b hok hnd hdis
    rw [dfsV] at hok
    simp only [hb, dite_true] at hok
    exact ih b hok hnd hdis
  | case3 gray black n rest hb hg =>
    intro b hok hnd hdis
    rw [dfsV] at hok
    simp only [hb, hg] at hok
    simp at hok
  | case4 gray black n rest hb hg ms herr ih =>
    intro b hok hnd hdis
    rw [dfsV] at hok
    simp only [hb, hg, herr] at hok
    simp at hok
  | case5 gray black n rest hb hg b1 h1 hok1 ms herr ih1 ih2 =>
    intro b hok hnd hdis
    rw [dfsV] at hok
    simp only [hb, hg, hok1, herr] at hok
    simp at hok
  | case6 gray black n rest hb hg b1 h1 hok1 b2 h2 hok2 ih1 ih2 =>
    intro b hok hnd hdis
    obtain ⟨bv, bprop⟩ := b
    rw [dfsV] at hok
    simp only [hb, hg, hok1, hok2] at hok
    simp at hok
    subst hok
    have hnb : n ∉ black := by simpa using hb
    have hng : n ∉ gray := by simpa using hg
    have hdis1 : ∀ x ∈ n :: gray, x ∉ black := by
      intro x hx
      rcases List.mem_cons.mp hx with rfl | hx2
      · exact hnb
      · exact hdis x hx2
    obtain ⟨hnd1, hdis1'⟩ := ih1 ⟨b1, h1⟩ hok1 hnd hdis1
    have hn1 : n ∉ b1 := hdis1' n (List.mem_cons_self n gray)
    have hnd2 : (n :: b1).Nodup := List.nodup_cons.mpr ⟨hn1, hnd1⟩
    have hdis2 : ∀ x ∈ gray, x ∉ n :: b1 := by
      intro x hx hmem
      rcases List.mem_cons.mp hmem with rfl | hx2
      · exact hng hx
      · exact hdis1' x (List.mem_cons_of_mem n hx) hx2
    exact ih2 ⟨b2, h2⟩ hok2 hnd2 hdis2

theorem reqsOf_subset_names (g : List Component) (hnm : NoMissing g) :
    ∀ n r, r ∈ reqsOf g n → r ∈ namesOf g := by
  intro n r hr
  unfold reqsOf at hr
  cases hf : findComp g n with
  | none => rw [hf] at hr; cases hr
  | some c =>
    rw [hf] at hr
    have hc : c ∈ g := List.mem_of_find?_eq_some hf
    exact hnm c hc r hr

theorem dfsV_ok_names (g : List Component) (ns gray black : List String) :
    ∀ (b : {b : List String // ∀ x ∈ black, x ∈ b}),
    dfsV g ns gray black = Except.ok b →
    NoMissing g → (∀ x ∈ ns, x ∈ namesOf g) → (∀ x ∈ black, x ∈ namesOf g) →
    ∀ x ∈ b.val, x ∈ namesOf g := by
  induction ns, gray, black using dfsV.induct g with
  | case1 gray black =>
    intro b hok hnm hns hbl
    obtain ⟨bv, bprop⟩ := b
    rw [dfsV] at hok
    simp at hok
    subst hok
    exact hbl
  | case2 gray black n rest hb ih =>
    intro b hok hnm hns hbl
    rw [dfsV] at hok
    simp only [hb, dite_true] at hok
    exact ih b hok hnm (fun x hx => hns x (List.mem_cons_of_mem n hx)) hbl
  | case3 gray black n rest hb hg =>
    intro b hok hnm hns hbl
    rw [dfsV] at hok
    simp only [hb, hg] at hok
    simp at hok
  | case4 gray black n rest hb hg ms herr ih =>
    intro b hok hnm hns hbl
    rw [dfsV] at hok
    simp only [hb, hg, herr] at hok
    simp at hok
  | case5 gray black n rest hb hg b1 h1 hok1 ms herr ih1 ih2 =>
    intro b hok hnm hns hbl
    rw [dfsV] at hok
    simp only [hb, hg, hok1, herr] at hok
    simp at hok
  | case6 gray black n rest hb hg b1 h1 hok1 b2 h2 hok2 ih1 ih2 =>
    intro b hok hnm hns hbl
    obtain ⟨bv, bprop⟩ := b
    rw [dfsV] at hok
    simp only [hb, hg, hok1, hok2] at hok
    simp at hok
    subst hok
    have hb1 : ∀ x ∈ b1, x ∈ namesOf g :=
      ih1 ⟨b1, h1⟩ hok1 hnm (fun x hx => reqsOf_subset_names g hnm n x hx) hbl
    have hnb1 : ∀ x ∈ n :: b1, x ∈ namesOf g := by
      intro x hx
      rcases List.mem_cons.mp hx with rfl | hx2
      · exact hns x (List.mem_cons_self x rest)
      · exact hb1 x hx2
    exact ih2 ⟨b2, h2⟩ hok2 hnm
      (fun x hx => hns x (List.mem_cons_of_mem n hx)) hnb1

theorem dropWhile_ne_eq_cons (n : String) :
    ∀ l : List String, n ∈ l →
      ∃ post, l.dropWhile (fun m => m != n) = n :: post := by
  intro l hl
  induction l with
  | nil => cases hl
  | cons a t ih =>
    by_cases ha : a = n
    · subst ha
      exact ⟨t, by simp [List.dropWhile_cons]⟩
    · have hne : (a != n) = true := by simp [ha]
      rcases List.mem_cons.mp hl with h | h
      · exact absurd h.symm ha
      · obtain ⟨post, hp⟩ := ih h
        refine ⟨post, ?_⟩
        rw [List.dropWhile_cons, hne]
        simpa using hp

theorem cycle_from_decomp (g : List Component) (pre post : List String)
    (n : String)
    (hch : List.Chain' (DepEdge g) (pre ++ n :: post))
    (hlk : ∀ hd tl, pre ++ n :: post = hd :: tl → DepEdge g n hd) :
    IsCycleList g (n :: pre) := by
  rw [List.chain'_append] at hch
  obtain ⟨hchpre, hchcons, hbound⟩ := hch
  have hpren : List.Chain' (DepEdge g) (pre ++ [n]) := by
    rw [List.chain'_append]
    refine ⟨hchpre, List.chain'_singleton n, ?_⟩
    intro x hx y hy
    simp only [List.head?_cons, Option.mem_def, Option.some.injEq] at hy
    subst hy
    exact hbound x hx n (by simp)
  constructor
  · simp
  · show List.Chain' (DepEdge g) ((n :: pre) ++ [(n :: pre).headD ""])
    have hfix : (n :: pre) ++ [(n :: pre).headD ""] = n :: (pre ++ [n]) := by
      simp
    rw [hfix, List.chain'_cons']
    refine ⟨?_, hpren⟩
    intro y hy
    cases pre with
    | nil =>
      simp only [List.nil_append, List.head?_cons, Option.mem_def,
        Option.some.injEq] at hy
      subst hy
      exact hlk n post rfl
    | cons p pre2 =>
      simp only [List.cons_append, List.head?_cons, Option.mem_def,
        Option.some.injEq] at hy
      subst hy
      exact hlk p (pre2 ++ n :: post) rfl

theorem chain_cycle_extract (g : List Component) (gray : List String)
    (n : String) (hmem : n ∈ gray)
    (hch : List.Chain' (DepEdge g) gray)
    (hlk : ∀ hd tl, gray = hd :: tl → DepEdge g n hd) :
    IsCycleList g (n :: gray.takeWhile (fun m => m != n)) := by
  obtain ⟨post, hpost⟩ := dropWhile_ne_eq_cons n gray hmem
  have hta := List.takeWhile_append_dropWhile (fun m => m != n) gray
  rw [hpost] at hta
  have hdec : gray = gray.takeWhile (fun m => m != n) ++ n :: post := hta.symm
  refine cycle_from_decomp g (gray.takeWhile (fun m => m != n)) post n ?_ ?_
  · rw [← hdec]
    exact hch
  · intro hd tl hgr
    exact hlk hd tl (by rw [hdec, hgr])

theorem dfsV_err_cycle (g : List Component) (ns gray black : List String) :
    ∀ ms, dfsV g ns gray black = Except.error ms →
    List.Chain' (DepEdge g) gray → Linked g ns gray →
    IsCycleList g ms := by
  induction ns, gray, black using dfsV.induct g with
  | case1 gray black =>
    intro ms hok
    rw [dfsV] at hok
    simp at hok
  | case2 gray black n rest hb ih =>
    intro ms hok hch hlk
    rw [dfsV] at hok
    simp only [hb, dite_true] at hok
    exact ih ms hok hch (fun x hx => hlk x (List.mem_cons_of_mem n hx))
  | case3 gray black n rest hb hg =>
    intro ms hok hch hlk
    rw [dfsV] at hok
    simp only [hb, hg] at hok
    simp at hok
    subst hok
    have hmem : n ∈ gray := by simpa using hg
    exact chain_cycle_extract g gray n hmem hch
      (fun hd tl hgr => hlk n (List.mem_cons_self n rest) hd tl hgr)
  | case4 gray black n rest hb hg ms2 herr ih =>
    intro ms hok hch hlk
    rw [dfsV] at hok
    simp only [hb, hg, herr] at hok
    simp at hok
    subst hok
    have hch2 : List.Chain' (DepEdge g) (n :: gray) := by
      rw [List.chain'_cons']
      refine ⟨?_, hch⟩
      intro y hy
      cases gray with
      | nil => simp at hy
      | cons hd tl =>
        simp only [List.head?_cons, Option.mem_def, Option.some.injEq] at hy
        subst hy
        exact hlk n (List.mem_cons_self n rest) hd tl rfl
    have hlk2 : Linked g (reqsOf g n) (n :: gray) := by
      intro x hx hd tl hgr
      cases hgr
      exact hx
    exact ih ms2 herr hch2 hlk2
  | case5 gray black n rest hb hg b1 h1 hok1 ms2 herr ih1 ih2 =>
    intro ms hok hch hlk
    rw [dfsV] at hok
    simp only [hb, hg, hok1, herr] at hok
    simp at hok
    subst hok
    exact ih2 ms2 herr hch (fun x hx => hlk x (List.mem_cons_of_mem n hx))
  | case6 gray black n rest hb hg b1 h1 hok1 b2 h2 hok2 ih1 ih2 =>
    intro ms hok hch hlk
    rw [dfsV] at hok
    simp only [hb, hg, hok1, hok2] at hok
    simp at hok

theorem topo_acc (g : List Component) :
    ∀ l : List String, TopoSorted g l → ∀ a ∈ l, Acc (DepEdge g) a := by
  intro l
  induction l with
  | nil => intro _ a ha; cases ha
  | cons n t ih =>
    intro ht a ha
    obtain ⟨hreqs, ht2⟩ := ht
    rcases List.mem_cons.mp ha with rfl | hmem
    · exact Acc.intro a (fun y hy => ih ht2 y (hreqs y hy))
    · exact ih ht2 a hmem

theorem acc_not_rel_self {α : Type} {R : α → α → Prop} :
    ∀ a : α, Acc R a → ¬ R a a := by
  intro a h
  induction h with
  | intro x _ ihx => exact fun hxx => ihx x hxx hxx

theorem chain_imp_transGen {α : Type} {R : α → α → Prop} :
    ∀ (l : List α) (a b : α), List.Chain' R (a :: (l ++ [b])) →
      Relation.TransGen R a b := by
  intro l
  induction l with
  | nil =>
    intro a b hch
    rw [List.nil_append, List.chain'_cons] at hch
    exact Relation.TransGen.single hch.1
  | cons c t ih =>
    intro a b hch
    rw [List.cons_append, List.chain'_cons] at hch
    exact Relation.TransGen.head hch.1 (ih c b hch.2)

theorem isCycleList_hasCycle (g : List Component) (ms : List String)
    (h : IsCycleList g ms) : HasCycle g := by
  obtain ⟨hne, hch⟩ := h
  cases ms with
  | nil => exact absurd rfl hne
  | cons m t =>
    refine ⟨m, chain_imp_transGen t m m ?_⟩
    have : (m :: t) ++ [(m :: t).headD ""] = m :: (t ++ [m]) := by simp
    rw [this] at hch
    exact hch

theorem edge_target_mem_names (g : List Component) (x y : String)
    (h : DepEdge g x y) : y ∈ namesOf g := by
  unfold DepEdge reqsOf at h
  cases hf : findComp g y with
  | none => rw [hf] at h; cases h
  | some c =>
    have hc : c ∈ g := List.mem_of_find?_eq_some hf
    have hcy : c.name = y := by
      have := List.find?_some hf
      simpa using this
    exact List.mem_map.mpr ⟨c, hc, hcy⟩

theorem dfsAll_ok_not_hasCycle (g : List Component)
    (b : {b : List String // ∀ x ∈ ([] : List String), x ∈ b})
    (hok : dfsAll g = Except.ok b) : ¬ HasCycle g := by
  rintro ⟨n, htg⟩
  have htopo : TopoSorted g b.val :=
    dfsV_ok_topo g (namesOf g) [] [] b hok trivial
  have hcover : ∀ x ∈ namesOf g, x ∈ b.val :=
    dfsV_ok_mem g (namesOf g) [] [] b hok
  have hnmem : n ∈ namesOf g := by
    rcases (Relation.transGen_iff (DepEdge g) n n).mp htg with h | ⟨c, _, h2⟩
    · exact edge_target_mem_names g n n h
    · exact edge_target_mem_names g c n h2
  have hacc : Acc (DepEdge g) n := topo_acc g b.val htopo n (hcover n hnmem)
  exact acc_not_rel_self n hacc.transGen htg

theorem dfsAll_err_isCycle (g : List Component) (ms : List String)
    (herr : dfsAll g = Except.error ms) : IsCycleList g ms := by
  refine dfsV_err_cycle g (namesOf g) [] [] ms herr ?_ ?_
  · exact List.chain'_nil
  · intro x _ hd tl h
    cases h

theorem hasCycle_dfsAll_err (g : List Component) (hc : HasCycle g) :
    ∃ ms, dfsAll g = Except.error ms := by
  cases hd : dfsAll g with
  | error ms => exact ⟨ms, rfl⟩
  | ok b => exact absurd hc (dfsAll_ok_not_hasCycle g b hd)

theorem not_hasCycle_dfsAll_ok (g : List Component) (hc : ¬ HasCycle g) :
    ∃ b, dfsAll g = Except.ok b := by
  cases hd : dfsAll g with
  | error ms =>
    exact absurd (isCycleList_hasCycle g ms (dfsAll_err_isCycle g ms hd)) hc
  | ok b => exact ⟨b, rfl⟩

theorem noCycle_of_rankOk (g : List Component) (f : String → Nat)
    (h : rankOk g f = true) : ¬ HasCycle g := by
  have hstep : ∀ x y, DepEdge g x y → f x < f y := by
    intro x y hxy
    unfold DepEdge reqsOf at hxy
    cases hf : findComp g y with
    | none => rw [hf] at hxy; cases hxy
    | some c =>
      rw [hf] at hxy
      have hc : c ∈ g := List.mem_of_find?_eq_some hf
      have hcy : c.name = y := by
        have := List.find?_some hf
        simpa using this
      unfold rankOk at h
      rw [List.all_eq_true] at h
      have := h c hc
      rw [List.all_eq_true] at this
      have := this x hxy
      simpa [hcy] using this
  rintro ⟨n, htg⟩
  have hmono : ∀ a b, Relation.TransGen (DepEdge g) a b → f a < f b := by
    intro a b htg2
    induction htg2 with
    | single h1 => exact hstep _ _ h1
    | tail _ h2 ih => exact Nat.lt_trans ih (hstep _ _ h2)
  exact Nat.lt_irrefl (f n) (hmono n n htg)

theorem checkMissing_eq_none_iff (g : List Component) :
    checkMissing g = none ↔ NoMissing g := by
  unfold checkMissing NoMissing
  rw [List.findSome?_eq_none_iff]
  constructor
  · intro h c hc r hr
    have h2 := h c hc
    rw [List.findSome?_eq_none_iff] at h2
    have h3 := h2 r hr
    by_cases hmem : r ∈ namesOf g
    · exact hmem
    · rw [if_neg hmem] at h3; cases h3
  · intro h c hc
    rw [List.findSome?_eq_none_iff]
    intro r hr
    rw [if_pos (h c hc r hr)]

theorem checkMissing_some_sound (g : List Component) (cn rn : String)
    (h : checkMissing g = some (cn, rn)) :
    ∃ c ∈ g, c.name = cn ∧ rn ∈ c.requirements ∧ rn ∉ namesOf g := by
  unfold checkMissing at h
  obtain ⟨c, hc, hcf⟩ := List.exists_of_findSome?_eq_some h
  obtain ⟨r, hr, hrf⟩ := List.exists_of_findSome?_eq_some hcf
  by_cases hmem : r ∈ namesOf g
  · rw [if_pos hmem] at hrf; cases hrf
  · rw [if_neg hmem] at hrf
    cases hrf
    exact ⟨c, hc, rfl, hr, hmem⟩

theorem goodOrdAux_append (g : List Component) :
    ∀ (xs ys done : List String),
      GoodOrdAux g done (xs ++ ys) ↔
        GoodOrdAux g done xs ∧ GoodOrdAux g (xs.reverse ++ done) ys := by
  intro xs
  induction xs with
  | nil =>
    intro ys done
    simp [GoodOrdAux]
  | cons x t ih =>
    intro ys done
    show (∀ r ∈ reqsOf g x, r ∈ done) ∧ GoodOrdAux g (x :: done) (t ++ ys) ↔ _
    rw [ih ys (x :: done)]
    constructor
    · rintro ⟨h1, h2, h3⟩
      refine ⟨⟨h1, h2⟩, ?_⟩
      have : (x :: t).reverse ++ done = t.reverse ++ (x :: done) := by simp
      rw [this]
      exact h3
    · rintro ⟨⟨h1, h2⟩, h3⟩
      refine ⟨h1, h2, ?_⟩
      have : (x :: t).reverse ++ done = t.reverse ++ (x :: done) := by simp
      rw [← this]
      exact h3

theorem goodOrd_of_topo (g : List Component) :
    ∀ (t done : List String), TopoSorted g t →
      GoodOrdAux g done t.reverse := by
  intro t
  induction t with
  | nil => intro done _; trivial
  | cons n t2 ih =>
    intro done ht
    obtain ⟨hreqs, ht2⟩ := ht
    show GoodOrdAux g done ((n :: t2).reverse)
    have hrw : (n :: t2).reverse = t2.reverse ++ [n] := by simp
    rw [hrw, goodOrdAux_append g]
    refine ⟨ih done ht2, ?_⟩
    show (∀ r ∈ reqsOf g n, r ∈ t2.reverse.reverse ++ done) ∧ _
    refine ⟨?_, trivial⟩
    intro r hr
    rw [List.reverse_reverse]
    exact List.mem_append.mpr (Or.inl (hreqs r hr))

theorem exec_dep_order_strong (g : List Component) :
    ∀ (ord done : List String), GoodOrdAux g done ord →
      (∀ x ∈ ord, (findComp g x).isSome) →
      ∀ cn dep, dep ∈ reqsOf g cn →
      ∀ l1 l2, (execute g ord).1 = l1 ++ Event.runStart cn :: l2 →
        dep ∈ done ∨ Event.runOk dep ∈ l1 := by
  intro ord
  induction ord with
  | nil =>
    intro done _ _ cn dep _ l1 l2 heq
    rw [show (execute g []).1 = [] from rfl] at heq
    cases l1 <;> cases heq
  | cons n rest ih =>
    intro done hgood hfind cn dep hdep l1 l2 heq
    obtain ⟨hreqs, hgood2⟩ := hgood
    cases hfc : findComp g n with
    | none =>
      have := hfind n (List.mem_cons_self n rest)
      rw [hfc] at this
      cases this
    | some c =>
      cases hre : c.runError with
      | some e =>
        simp only [execute, hfc, hre] at heq
        cases l1 with
        | nil =>
          simp only [List.nil_append] at heq
          have hcn : cn = n := by
            have := List.head_eq_of_cons_eq heq.symm
            exact (Event.runStart.injEq cn n).mp this
          subst hcn
          exact Or.inl (hreqs dep hdep)
        | cons a l1b =>
          have htl := List.tail_eq_of_cons_eq heq
          cases l1b with
          | nil =>
            have := List.head_eq_of_cons_eq htl.symm
            cases this
          | cons b l1c =>
            have htl2 := List.tail_eq_of_cons_eq htl
            cases l1c <;> cases htl2
      | none =>
        simp only [execute, hfc, hre] at heq
        cases l1 with
        | nil =>
          simp only [List.nil_append] at heq
          have hcn : cn = n := by
            have := List.head_eq_of_cons_eq heq.symm
            exact (Event.runStart.injEq cn n).mp this
          subst hcn
          exact Or.inl (hreqs dep hdep)
        | cons a l1b =>
          have hhd := List.head_eq_of_cons_eq heq
          have htl := List.tail_eq_of_cons_eq heq
          cases l1b with
          | nil =>
            have := List.head_eq_of_cons_eq htl.symm
            cases this
          | cons b l1c =>
            have hhd2 := List.head_eq_of_cons_eq htl
            have htl2 := List.tail_eq_of_cons_eq htl
            have hrec := ih (n :: done) hgood2
              (fun x hx => hfind x (List.mem_cons_of_mem n hx))
              cn dep hdep l1c l2 htl2
            rcases hrec with hdone | hmem
            · rcases List.mem_cons.mp hdone with rfl | hd2
              · right
                rw [← hhd2]
                exact List.mem_cons_of_mem a (List.mem_cons_self _ l1c)
              · exact Or.inl hd2
            · right
              exact List.mem_cons_of_mem a (List.mem_cons_of_mem b hmem)

theorem exec_fail_res (g : List Component) :
    ∀ (ord : List String) (cn e : String),
      Event.runFail cn e ∈ (execute g ord).1 →
      (execute g ord).2 = some (cn, e) := by
  intro ord
  induction ord with
  | nil =>
    intro cn e hmem
    simp [execute] at hmem
  | cons n rest ih =>
    intro cn e hmem
    cases hfc : findComp g n with
    | none =>
      simp only [execute, hfc] at hmem ⊢
      exact ih cn e hmem
    | some c =>
      cases hre : c.runError with
      | none =>
        simp only [execute, hfc, hre] at hmem ⊢
        rcases List.mem_cons.mp hmem with h1 | h2
        · cases h1
        · rcases List.mem_cons.mp h2 with h3 | h4
          · cases h3
          · exact ih cn e h4
      | some e2 =>
        simp only [execute, hfc, hre] at hmem ⊢
        rcases List.mem_cons.mp hmem with h1 | h2
        · cases h1
        · rcases List.mem_cons.mp h2 with h3 | h4
          · cases h3
            rfl
          · cases h4

theorem exec_fail_in_ord (g : List Component) :
    ∀ (ord : List String) (cn e : String),
      (execute g ord).2 = some (cn, e) → cn ∈ ord := by
  intro ord
  induction ord with
  | nil =>
    intro cn e hres
    simp [execute] at hres
  | cons n rest ih =>
    intro cn e hres
    cases hfc : findComp g n with
    | none =>
      simp only [execute, hfc] at hres
      exact List.mem_cons_of_mem n (ih cn e hres)
    | some c =>
      cases hre : c.runError with
      | none =>
        simp only [execute, hfc, hre] at hres
        exact List.mem_cons_of_mem n (ih cn e hres)
      | some e2 =>
        simp only [execute, hfc, hre] at hres
        cases hres
        exact List.mem_cons_self n rest

theorem exec_fail_comp (g : List Component) :
    ∀ (ord : List String) (cn e : String),
      (execute g ord).2 = some (cn, e) →
      ∃ c ∈ g, c.name = cn ∧ c.runError = some e := by
  intro ord
  induction ord with
  | nil =>
    intro cn e hres
    simp [execute] at hres
  | cons n rest ih =>
    intro cn e hres
    cases hfc : findComp g n with
    | none =>
      simp only [execute, hfc] at hres
      exact ih cn e hres
    | some c =>
      cases hre : c.runError with
      | none =>
        simp only [execute, hfc, hre] at hres
        exact ih cn e hres
      | some e2 =>
        simp only [execute, hfc, hre] at hres
        cases hres
        refine ⟨c, List.mem_of_find?_eq_some hfc, ?_, hre⟩
        have := List.find?_some hfc
        simpa using this

theorem exec_fail_no_ok (g : List Component) :
    ∀ (ord : List String) (cn e : String), ord.Nodup →
      (execute g ord).2 = some (cn, e) →
      Event.runOk cn ∉ (execute g ord).1 := by
  intro ord
  induction ord with
  | nil =>
    intro cn e _ hres
    simp [execute] at hres
  | cons n rest ih =>
    intro cn e hnd hres
    obtain ⟨hn, hnd2⟩ := List.nodup_cons.mp hnd
    cases hfc : findComp g n with
    | none =>
      simp only [execute, hfc] at hres ⊢
      exact ih cn e hnd2 hres
    | some c =>
      cases hre : c.runError with
      | none =>
        simp only [execute, hfc, hre] at hres ⊢
        intro hmem
        rcases List.mem_cons.mp hmem with h1 | h2
        · cases h1
        · rcases List.mem_cons.mp h2 with h3 | h4
          · cases h3
            exact hn (exec_fail_in_ord g rest n e hres)
          · exact ih cn e hnd2 hres h4
      | some e2 =>
        simp only [execute, hfc, hre] at hres ⊢
        cases hres
        intro hmem
        rcases List.mem_cons.mp hmem with h1 | h2
        · cases h1
        · rcases List.mem_cons.mp h2 with h3 | h4
          · cases h3
          · cases h4

theorem exec_all_ok_res_none (g : List Component) :
    ∀ (ord : List String), ord.Nodup →
      (∀ c ∈ g, Event.runOk c.name ∈ (execute g ord).1) →
      (execute g ord).2 = none := by
  intro ord hnd hall
  cases hres : (execute g ord).2 with
  | none => rfl
  | some p =>
    obtain ⟨cn, e⟩ := p
    obtain ⟨c, hc, hname, _⟩ := exec_fail_comp g ord cn e hres
    have hok := hall c hc
    rw [hname] at hok
    exact absurd hok (exec_fail_no_ok g ord cn e hnd hres)

theorem findComp_isSome_of_mem_names (g : List Component) (x : String)
    (hx : x ∈ namesOf g) : (findComp g x).isSome := by
  obtain ⟨c, hc, hname⟩ := List.mem_map.mp hx
  unfold findComp
  cases hf : g.find? (fun c2 => c2.name = x) with
  | some c2 => rfl
  | none =>
    rw [List.find?_eq_none] at hf
    have := hf c hc
    simp only [decide_eq_true_eq] at this
    exact absurd hname this

/-- C1: for a registry whose dependency graph is acyclic and has no missing
dependencies, `initialize` starts a component's run only after the run of
every name in its requirements has completed successfully: no occurrence of
a component's `runStart` in the trace precedes the `runOk` of any of its
requirements, and every started component has each requirement's `runOk`
strictly earlier in the trace. -/
theorem initAll_run_after_deps (R : Registry)
    (hmiss : NoMissing R.components) (hacyc : ¬ HasCycle R.components) :
    ∀ cn dep, dep ∈ reqsOf R.components cn →
      (∀ l1 l2, (initAll R).1 = l1 ++ Event.runStart cn :: l2 →
        Event.runOk dep ∈ l1) ∧
      (Event.runStart cn ∈ (initAll R).1 →
        precedes (Event.runOk dep) (Event.runStart cn) (initAll R).1) := by
  intro cn dep hdep
  have hcm : checkMissing R.components = none :=
    (checkMissing_eq_none_iff _).mpr hmiss
  obtain ⟨b, hok⟩ := not_hasCycle_dfsAll_ok R.components hacyc
  have htr : (initAll R).1 = (execute R.components b.val.reverse).1 := by
    unfold initAll
    rw [hcm, hok]
  have htopo : TopoSorted R.components b.val :=
    dfsV_ok_topo R.components (namesOf R.components) [] [] b hok trivial
  have hgood : GoodOrdAux R.components [] b.val.reverse :=
    goodOrd_of_topo R.components b.val [] htopo
  have hnames : ∀ x ∈ b.val, x ∈ namesOf R.components :=
    dfsV_ok_names R.components (namesOf R.components) [] [] b hok hmiss
      (fun x hx => hx) (fun x hx => by cases hx)
  have hfind : ∀ x ∈ b.val.reverse, (findComp R.components x).isSome := by
    intro x hx
    exact findComp_isSome_of_mem_names R.components x
      (hnames x (List.mem_reverse.mp hx))
  have hstrong : ∀ l1 l2, (initAll R).1 = l1 ++ Event.runStart cn :: l2 →
      Event.runOk dep ∈ l1 := by
    intro l1 l2 heq
    rw [htr] at heq
    have := exec_dep_order_strong R.components b.val.reverse [] hgood hfind
      cn dep hdep l1 l2 heq
    rcases this with h | h
    · cases h
    · exact h
  refine ⟨hstrong, ?_⟩
  intro hmem
  obtain ⟨l1, l2, hsplit⟩ := List.append_of_mem hmem
  have hok2 := hstrong l1 l2 hsplit
  obtain ⟨la, lb, hla⟩ := List.append_of_mem hok2
  refine ⟨la, lb, l2, ?_⟩
  rw [hsplit, hla]

/-- C2 (amended): for a registry whose dependency graph contains a cycle
and has no missing dependencies, `initialize` fails with a cycle error
whose reported members form an actual cycle, the trace is empty, and no
component's run is invoked. -/
theorem initAll_cycle_error (R : Registry)
    (hcyc : HasCycle R.components) (hmiss : NoMissing R.components) :
    ∃ ms, initAll R = ([], [some (InitErr.cycleErr ms)]) ∧
      IsCycleList R.components ms := by
  have hcm : checkMissing R.components = none :=
    (checkMissing_eq_none_iff _).mpr hmiss
  obtain ⟨ms, herr⟩ := hasCycle_dfsAll_err R.components hcyc
  refine ⟨ms, ?_, dfsAll_err_isCycle R.components ms herr⟩
  unfold initAll
  rw [hcm, herr]

/-- C3: when some registered component requires a name that is not
registered, `initialize` fails with a missing-dependency error naming an
offending component and the missing name, with an empty trace — no
component's run is invoked and no component is otherwise touched. -/
theorem initAll_missing_dep (R : Registry)
    (h : ∃ c ∈ R.components, ∃ r ∈ c.requirements, r ∉ namesOf R.components) :
    ∃ cn rn, initAll R = ([], [some (InitErr.missingDep cn rn)]) ∧
      (∃ c ∈ R.components, c.name = cn ∧ rn ∈ c.requirements) ∧
      rn ∉ namesOf R.components := by
  have hnm : ¬ NoMissing R.components := by
    rintro hnm
    obtain ⟨c, hc, r, hr, hmem⟩ := h
    exact hmem (hnm c hc r hr)
  cases hcm : checkMissing R.components with
  | none => exact absurd ((checkMissing_eq_none_iff _).mp hcm) hnm
  | some p =>
    obtain ⟨cn, rn⟩ := p
    obtain ⟨c, hc, hname, hreq, hmiss⟩ :=
      checkMissing_some_sound R.components cn rn hcm
    refine ⟨cn, rn, ?_, ⟨c, hc, hname, hreq⟩, hmiss⟩
    unfold initAll
    rw [hcm]

/-- C4: the `initialize` callback fires exactly once — with the first
failure's error when a run fails, and with no error once every component
has completed its run successfully. -/
theorem initAll_callback_once (R : Registry) :
    ((initAll R).2.length = 1) ∧
    (∀ cn e, Event.runFail cn e ∈ (initAll R).1 →
      (initAll R).2 = [some (InitErr.runErr cn e)]) ∧
    ((∀ c ∈ R.components, Event.runOk c.name ∈ (initAll R).1) →
      (initAll R).2 = [none]) := by
  refine ⟨?_, ?_, ?_⟩
  · unfold initAll
    cases hcm : checkMissing R.components with
    | some p => obtain ⟨cn, rn⟩ := p; rfl
    | none =>
      cases hd : dfsAll R.components with
      | error ms => rfl
      | ok b => rfl
  · intro cn e hmem
    cases hcm : checkMissing R.components with
    | some p =>
      obtain ⟨c1, r1⟩ := p
      unfold initAll at hmem ⊢
      rw [hcm] at hmem ⊢
      cases hmem
    | none =>
      cases hd : dfsAll R.components with
      | error ms =>
        unfold initAll at hmem ⊢
        rw [hcm, hd] at hmem ⊢
        cases hmem
      | ok b =>
        unfold initAll at hmem ⊢
        rw [hcm, hd] at hmem ⊢
        simp only at hmem ⊢
        rw [exec_fail_res R.components b.val.reverse cn e hmem]
  · intro hall
    cases hcm : checkMissing R.components with
    | some p =>
      obtain ⟨c1, r1⟩ := p
      by_cases hcs : R.components = []
      · rw [hcs] at hcm
        cases hcm
      · obtain ⟨c0, hc0⟩ := List.exists_mem_of_ne_nil R.components hcs
        have := hall c0 hc0
        unfold initAll at this
        rw [hcm] at this
        cases this
    | none =>
      cases hd : dfsAll R.components with
      | error ms =>
        by_cases hcs : R.components = []
        · rw [hcs] at hd
          unfold dfsAll at hd
          rw [show namesOf ([] : List Component) = [] from rfl] at hd
          rw [dfsV] at hd
          cases hd
        · obtain ⟨c0, hc0⟩ := List.exists_mem_of_ne_nil R.components hcs
          have := hall c0 hc0
          unfold initAll at this
          rw [hcm, hd] at this
          cases this
      | ok b =>
        unfold initAll at hall ⊢
        rw [hcm, hd] at hall ⊢
        simp only at hall ⊢
        have hnd : b.val.reverse.Nodup := by
          have := dfsV_ok_nodup R.components (namesOf R.components) [] [] b hd
            List.nodup_nil (fun x hx => by cases hx)
          exact List.nodup_reverse.mpr this.1
        rw [exec_all_ok_res_none R.components b.val.reverse hnd hall]

theorem foldl_attach_name (l : List (List String × String × Nat)) :
    ∀ c : Component,
      (l.foldl (fun acc p => acc.attach p.2.1 p.2.2) c).name = c.name := by
  induction l with
  | nil => intro c; rfl
  | cons p rest ih =>
    intro c
    rw [List.foldl_cons]
    exact ih (c.attach p.2.1 p.2.2)

theorem attachTo_names (R : Registry) (ts : List String) (m : String)
    (fn : Nat) :
    namesOf (attachTo R ts m fn).components = namesOf R.components := by
  show namesOf (R.components.map _) = _
  unfold namesOf
  rw [List.map_map]
  apply List.map_congr_left
  intro c _
  by_cases h : c.name ∈ ts <;> simp [h, Component.attach]

theorem register_ok_elim (R : Registry) (c : Component) (R2 : Registry)
    (h : register R c = Except.ok R2) :
    R.frozen = false ∧
    (R.components.any (fun c2 => c2.name = c.name)) = false ∧
    ∃ c3 : Component, c3.name = c.name ∧
      R2.components = R.components ++ [c3] ∧ R2.frozen = R.frozen := by
  unfold register at h
  by_cases hf : R.frozen
  · rw [if_pos hf] at h; cases h
  · rw [if_neg hf] at h
    by_cases hany : R.components.any (fun c2 => c2.name = c.name) = true
    · rw [if_pos hany] at h; cases h
    · rw [if_neg hany] at h
      cases h
      refine ⟨by simpa using hf, by simpa using hany, ?_⟩
      refine ⟨_, ?_, rfl, rfl⟩
      exact foldl_attach_name _ c

theorem step_nodup (R R2 : Registry) (hstep : Step R R2)
    (hnd : (namesOf R.components).Nodup) :
    (namesOf R2.components).Nodup := by
  cases hstep with
  | registerOk c R3 hok =>
    obtain ⟨_, hany, c3, hname, hcomps, _⟩ := register_ok_elim R c R2 hok
    rw [hcomps]
    unfold namesOf
    rw [List.map_append]
    simp only [List.map_cons, List.map_nil]
    rw [List.nodup_append]
    refine ⟨hnd, List.nodup_singleton _, ?_⟩
    intro x hx
    simp only [List.mem_singleton]
    intro hx2
    subst hx2
    rw [List.any_eq_false] at hany
    obtain ⟨c2, hc2, hcn⟩ := List.mem_map.mp hx
    have := hany c2 hc2
    rw [hname] at hcn
    simp only [decide_eq_true_eq] at this
    exact this hcn
  | registerFail c e herr => exact hnd
  | attachStep ts m fn => rw [attachTo_names]; exact hnd
  | freezeStep => exact hnd

theorem step_frozen_names (R R2 : Registry) (hf : R.frozen = true)
    (hstep : Step R R2) :
    namesOf R2.components = namesOf R.components := by
  cases hstep with
  | registerOk c R3 hok =>
    obtain ⟨hfz, _, _⟩ := register_ok_elim R c R2 hok
    rw [hf] at hfz
    cases hfz
  | registerFail c e herr => rfl
  | attachStep ts m fn => exact attachTo_names R ts m fn
  | freezeStep => rfl

/-- C5: `register` fails with a frozen-graph error after `initialize` has
started and with a duplicate-name error when the name is taken; hence in
every reachable registry state component names are pairwise distinct, and
once frozen no step changes the component name list. -/
theorem register_invariants :
    (∀ (R : Registry) (c : Component), R.frozen = true →
      register R c = Except.error RegError.frozen) ∧
    (∀ (R : Registry) (c : Component), R.frozen = false →
      (∃ c2 ∈ R.components, c2.name = c.name) →
      register R c = Except.error (RegError.duplicateName c.name)) ∧
    (∀ R : Registry, Reachable R → (namesOf R.components).Nodup) ∧
    (∀ (R R2 : Registry), R.frozen = true → Step R R2 →
      namesOf R2.components = namesOf R.components) := by
  refine ⟨?_, ?_, ?_, ?_⟩
  · intro R c hf
    unfold register
    rw [if_pos (by simp [hf])]
  · intro R c hf hdup
    have hany : R.components.any (fun c2 => c2.name = c.name) = true := by
      rw [List.any_eq_true]
      obtain ⟨c2, hc2, hname⟩ := hdup
      exact ⟨c2, hc2, by simpa using hname⟩
    unfold register
    rw [if_neg (by simp [hf]), if_pos (by simp [hany])]
  · intro R hreach
    induction hreach with
    | refl => simp [emptyRegistry, namesOf]
    | tail hsteps hstep ih => exact step_nodup _ _ hstep ih
  · intro R R2 hf hstep
    exact step_frozen_names R R2 hf hstep

theorem lookupKV_append_fresh (k : String) (v : Nat) :
    ∀ l : List (String × Nat), l.any (fun p => p.1 = k) = false →
      lookupKV (l ++ [(k, v)]) k = some v := by
  intro l hany
  induction l with
  | nil => simp [lookupKV]
  | cons p rest ih =>
    obtain ⟨k1, v1⟩ := p
    rw [List.any_cons] at hany
    have h1 : (decide (k1 = k)) = false := by
      cases h : decide (k1 = k)
      · rfl
      · rw [h] at hany; simp at hany
    have h2 : rest.any (fun p => p.1 = k) = false := by
      cases h : rest.any (fun p => p.1 = k)
      · rfl
      · rw [h] at hany; simp at hany
    rw [List.cons_append]
    show (if k1 = k then some v1 else lookupKV (rest ++ [(k, v)]) k) = some v
    rw [if_neg (by simpa using h1)]
    exact ih h2

theorem lookupKV_map_replace (k : String) (v : Nat) :
    ∀ l : List (String × Nat), l.any (fun p => p.1 = k) = true →
      lookupKV (l.map (fun p => if p.1 = k then (k, v) else p)) k = some v := by
  intro l hany
  induction l with
  | nil => simp at hany
  | cons p rest ih =>
    obtain ⟨k1, v1⟩ := p
    rw [List.map_cons]
    by_cases h1 : k1 = k
    · subst h1
      show lookupKV ((if (k1, v1).1 = k1 then (k1, v) else (k1, v1)) ::
        rest.map (fun p => if p.1 = k1 then (k1, v) else p)) k1 = some v
      rw [if_pos rfl]
      show (if k1 = k1 then some v else _) = some v
      rw [if_pos rfl]
    · rw [List.any_cons] at hany
      have h2 : rest.any (fun p => p.1 = k) = true := by
        rw [Bool.or_eq_true] at hany
        rcases hany with h | h
        · exact absurd (by simpa using h) h1
        · exact h
      show lookupKV ((if (k1, v1).1 = k then (k, v) else (k1, v1)) ::
        rest.map (fun p => if p.1 = k then (k, v) else p)) k = some v
      rw [if_neg (by simpa using h1)]
      show (if k1 = k then some v1 else _) = some v
      rw [if_neg h1]
      exact ih h2

theorem lookupKV_setKV (l : List (String × Nat)) (k : String) (v : Nat) :
    lookupKV (setKV l k v) k = some v := by
  unfold setKV
  cases hany : l.any (fun p => p.1 = k) with
  | true =>
    rw [if_pos (by simp [hany])]
    exact lookupKV_map_replace k v l hany
  | false =>
    rw [if_neg (by simp [hany])]
    exact lookupKV_append_fresh k v l hany

theorem lookupKV_attach (c : Component) (m : String) (fn : Nat) :
    lookupKV (c.attach m fn).attachments m = some fn :=
  lookupKV_setKV c.attachments m fn

theorem findComp_map (g : List Component) (f : Component → Component)
    (hf : ∀ c, (f c).name = c.name) (X : String) :
    findComp (g.map f) X = (findComp g X).map f := by
  unfold findComp
  induction g with
  | nil => rfl
  | cons c rest ih =>
    rw [List.map_cons]
    by_cases hx : c.name = X
    · rw [List.find?_cons_of_pos, List.find?_cons_of_pos]
      · rfl
      · simpa using hx
      · simp [hf, hx]
    · rw [List.find?_cons_of_neg, List.find?_cons_of_neg]
      · exact ih
      · simpa using hx
      · simp [hf, hx]

theorem findComp_append_sing (l : List Component) (c : Component) (X : String)
    (hnone : findComp l X = none) (hname : c.name = X) :
    findComp (l ++ [c]) X = some c := by
  unfold findComp at hnone ⊢
  rw [List.find?_append, hnone]
  simp [List.find?, hname]

theorem foldl_attach_last (c : Component)
    (pre : List (List String × String × Nat)) (ts : List String)
    (m : String) (fn : Nat) :
    lookupKV ((pre ++ [(ts, m, fn)]).foldl
      (fun acc p => acc.attach p.2.1 p.2.2) c).attachments m = some fn := by
  rw [List.foldl_append]
  simp only [List.foldl_cons, List.foldl_nil]
  exact lookupKV_attach _ m fn

theorem findComp_eq_none_iff (g : List Component) (X : String) :
    findComp g X = none ↔ X ∉ namesOf g := by
  unfold findComp
  rw [List.find?_eq_none]
  constructor
  · intro h hx
    obtain ⟨c, hc, hname⟩ := List.mem_map.mp hx
    have := h c hc
    simp only [decide_eq_true_eq] at this
    exact this hname
  · intro h c hc
    simp only [decide_eq_true_eq]
    intro hname
    exact h (List.mem_map.mpr ⟨c, hc, hname⟩)

/-- C6: `attachTo(X, m, fn)` with `X` already registered attaches `fn`
under `m` immediately; with `X` unregistered it queues the request in
`pendingAttachments` and the attachment happens the moment `X` is
registered — in both cases `X`'s attachment under `m` is `fn`
afterwards. -/
theorem attachTo_resolution (R : Registry) (X m : String) (fn : Nat) :
    (∀ c : Component, findComp R.components X = some c →
      ∃ c2, findComp (attachTo R [X] m fn).components X = some c2 ∧
        lookupKV c2.attachments m = some fn) ∧
    (findComp R.components X = none → R.frozen = false →
      (attachTo R [X] m fn).pendingAttachments =
        R.pendingAttachments ++ [([X], m, fn)] ∧
      (∀ cX : Component, cX.name = X →
        ∃ R2 c2, register (attachTo R [X] m fn) cX = Except.ok R2 ∧
          findComp R2.components X = some c2 ∧
          lookupKV c2.attachments m = some fn)) := by
  constructor
  · intro c hfound
    have hname : c.name = X := by
      have := List.find?_some hfound
      simpa using this
    have hmap := findComp_map R.components
      (fun c2 => if [X].contains c2.name then c2.attach m fn else c2)
      (fun c2 => by
        by_cases h : c2.name = X <;> simp [h, Component.attach]) X
    refine ⟨c.attach m fn, ?_, lookupKV_attach c m fn⟩
    show findComp (R.components.map _) X = _
    rw [hmap, hfound]
    simp [hname, Component.attach]
  · intro hnone hfz
    have hxnames : X ∉ namesOf R.components :=
      (findComp_eq_none_iff R.components X).mp hnone
    have hanyX : R.components.any (fun c => c.name = X) = false := by
      rw [List.any_eq_false]
      intro c hc
      simp only [decide_eq_true_eq]
      intro hname
      exact hxnames (List.mem_map.mpr ⟨c, hc, hname⟩)
    have hmissing : ([X].filter
        (fun t => !(R.components.any (fun c => c.name = t)))) = [X] := by
      simp [List.filter, hanyX]
    have hpend : (attachTo R [X] m fn).pendingAttachments =
        R.pendingAttachments ++ [([X], m, fn)] := by
      show (if _ then _ else _) = _
      rw [hmissing]
      rw [if_neg (by simp)]
    refine ⟨hpend, ?_⟩
    intro cX hnameX
    have hcomps : (attachTo R [X] m fn).components = R.components.map
      (fun c => if [X].contains c.name then c.attach m fn else c) := rfl
    have hany2 : ((attachTo R [X] m fn).components.any
        (fun c2 => c2.name = cX.name)) = false := by
      rw [hcomps, List.any_eq_false]
      intro c2 hc2
      obtain ⟨c3, hc3, hc3e⟩ := List.mem_map.mp hc2
      simp only [decide_eq_true_eq]
      intro hnn
      have hc2n : c2.name = c3.name := by
        rw [← hc3e]
        by_cases h : c3.name = X <;> simp [h, Component.attach]
      rw [hc2n, hnameX] at hnn
      exact hxnames (List.mem_map.mpr ⟨c3, hc3, hnn⟩)
    have hfz2 : (attachTo R [X] m fn).frozen = false := hfz
    set R1 := attachTo R [X] m fn with hR1
    have hreg : register R1 cX = Except.ok
        { components := R1.components ++
            [(R1.pendingAttachments.filter
                (fun p => p.1.contains cX.name)).foldl
              (fun acc p => acc.attach p.2.1 p.2.2) cX],
          pendingAttachments :=
            (R1.pendingAttachments.map
              (fun p => (p.1.filter (fun t => t ≠ cX.name), p.2.1, p.2.2))).filter
              (fun p => !p.1.isEmpty),
          frozen := R1.frozen } := by
      unfold register
      rw [if_neg (by simp [hfz2]), if_neg (by simp [hany2])]
    have hmatched : R1.pendingAttachments.filter
        (fun p => p.1.contains cX.name) =
        (R.pendingAttachments.filter (fun p => p.1.contains cX.name)) ++
          [([X], m, fn)] := by
      rw [hpend, List.filter_append]
      congr 1
      simp [hnameX]
    refine ⟨_, (R1.pendingAttachments.filter
        (fun p => p.1.contains cX.name)).foldl
      (fun acc p => acc.attach p.2.1 p.2.2) cX, hreg, ?_, ?_⟩
    · apply findComp_append_sing
      · rw [findComp_eq_none_iff]
        intro hmem
        unfold namesOf at hmem
        rw [hcomps, List.map_map] at hmem
        obtain ⟨c3, hc3, hc3e⟩ := List.mem_map.mp hmem
        have : c3.name = X := by
          simp only [Function.comp] at hc3e
          rw [← hc3e]
          by_cases h : c3.name = X <;> simp [h, Component.attach]
        exact hxnames (List.mem_map.mpr ⟨c3, hc3, this⟩)
      · rw [foldl_attach_name]
        exact hnameX
    · rw [hmatched]
      exact foldl_attach_last cX _ [X] m fn

/-- C1 witness: the theorem applied to the db/cache/api registry. -/
theorem initAll_run_after_deps_witness :
    (NoMissing sampleAcyclic.components ∧
      ¬ HasCycle sampleAcyclic.components) ∧
    (∀ cn dep, dep ∈ reqsOf sampleAcyclic.components cn →
      (∀ l1 l2, (initAll sampleAcyclic).1 = l1 ++ Event.runStart cn :: l2 →
        Event.runOk dep ∈ l1) ∧
      (Event.runStart cn ∈ (initAll sampleAcyclic).1 →
        precedes (Event.runOk dep) (Event.runStart cn)
          (initAll sampleAcyclic).1)) := by
  have hmiss : NoMissing sampleAcyclic.components := by
    unfold NoMissing
    decide
  have hacyc : ¬ HasCycle sampleAcyclic.components :=
    noCycle_of_rankOk sampleAcyclic.components
      (fun n => if n = "db" then 0 else if n = "cache" then 1 else 2)
      (by decide)
  exact ⟨⟨hmiss, hacyc⟩, initAll_run_after_deps sampleAcyclic hmiss hacyc⟩

/-- C2 counterexample: `sampleBoth` has the cycle a ↔ b, yet `initialize`
reports the missing dependency ("a", "ghost") — not a cycle error —
because the spec checks missing dependencies (step 2) before cycles
(step 3).  The claim as stated is therefore false for registries that also
have a missing dependency. -/
theorem cycle_error_counterexample :
    HasCycle sampleBoth.components ∧
    (initAll sampleBoth).2 = [some (InitErr.missingDep "a" "ghost")] ∧
    ∀ ms, (initAll sampleBoth).2 ≠ [some (InitErr.cycleErr ms)] := by
  have e1 : DepEdge sampleBoth.components "a" "b" := by
    show "a" ∈ reqsOf sampleBoth.components "b"
    decide
  have e2 : DepEdge sampleBoth.components "b" "a" := by
    show "b" ∈ reqsOf sampleBoth.components "a"
    decide
  have hval : (initAll sampleBoth).2 =
      [some (InitErr.missingDep "a" "ghost")] := rfl
  refine ⟨⟨"a", Relation.TransGen.head e1 (Relation.TransGen.single e2)⟩,
    hval, ?_⟩
  intro ms h
  rw [hval] at h
  simp at h

/-- C2 witness: the amended theorem applied to the two-component cycle. -/
theorem initAll_cycle_error_witness :
    (HasCycle sampleCyclic.components ∧ NoMissing sampleCyclic.components) ∧
    (∃ ms, initAll sampleCyclic = ([], [some (InitErr.cycleErr ms)]) ∧
      IsCycleList sampleCyclic.components ms) := by
  have e1 : DepEdge sampleCyclic.components "a" "b" := by
    show "a" ∈ reqsOf sampleCyclic.components "b"
    decide
  have e2 : DepEdge sampleCyclic.components "b" "a" := by
    show "b" ∈ reqsOf sampleCyclic.components "a"
    decide
  have hcyc : HasCycle sampleCyclic.components :=
    ⟨"a", Relation.TransGen.head e1 (Relation.TransGen.single e2)⟩
  have hmiss : NoMissing sampleCyclic.components := by
    unfold NoMissing
    decide
  exact ⟨⟨hcyc, hmiss⟩, initAll_cycle_error sampleCyclic hcyc hmiss⟩

/-- C3 witness: the theorem applied to the ghost-requirement registry. -/
theorem initAll_missing_dep_witness :
    (∃ c ∈ sampleMissing.components, ∃ r ∈ c.requirements,
      r ∉ namesOf sampleMissing.components) ∧
    (∃ cn rn, initAll sampleMissing =
        ([], [some (InitErr.missingDep cn rn)]) ∧
      (∃ c ∈ sampleMissing.components, c.name = cn ∧ rn ∈ c.requirements) ∧
      rn ∉ namesOf sampleMissing.components) := by
  have h : ∃ c ∈ sampleMissing.components, ∃ r ∈ c.requirements,
      r ∉ namesOf sampleMissing.components := by decide
  exact ⟨h, initAll_missing_dep sampleMissing h⟩

/-- C4 witness: the theorem applied to a failing single-component registry
and to the all-successful db/cache/api registry. -/
theorem initAll_callback_once_witness :
    (Event.runFail "a" "boom" ∈ (initAll sampleFailing).1 ∧
      (initAll sampleFailing).2 = [some (InitErr.runErr "a" "boom")]) ∧
    ((∀ c ∈ sampleAcyclic.components,
        Event.runOk c.name ∈ (initAll sampleAcyclic).1) ∧
      (initAll sampleAcyclic).2 = [none]) := by
  have h1 : Event.runFail "a" "boom" ∈ (initAll sampleFailing).1 := by
    simp [initAll, checkMissing, dfsAll, dfsV, execute, namesOf, reqsOf,
      findComp, sampleFailing]
  have htr : (initAll sampleAcyclic).1 =
      [Event.runStart "db", Event.runOk "db", Event.runStart "cache",
       Event.runOk "cache", Event.runStart "api", Event.runOk "api"] := by
    simp [initAll, checkMissing, dfsAll, dfsV, execute, namesOf, reqsOf,
      findComp, sampleAcyclic]
  have h2 : ∀ c ∈ sampleAcyclic.components,
      Event.runOk c.name ∈ (initAll sampleAcyclic).1 := by
    intro c hc
    rw [htr]
    fin_cases hc <;> decide
  exact ⟨⟨h1, (initAll_callback_once sampleFailing).2.1 "a" "boom" h1⟩,
    ⟨h2, (initAll_callback_once sampleAcyclic).2.2 h2⟩⟩

/-- C5 witness: the invariants applied to concrete frozen, duplicate-name
and reachable registries. -/
theorem register_invariants_witness :
    ((freezeRegistry emptyRegistry).frozen = true ∧
      register (freezeRegistry emptyRegistry) sampleXComp =
        Except.error RegError.frozen) ∧
    (sampleAttach.frozen = false ∧
      register sampleAttach sampleXComp =
        Except.error (RegError.duplicateName "x")) ∧
    (Reachable emptyRegistry ∧
      (namesOf emptyRegistry.components).Nodup) ∧
    ((freezeRegistry emptyRegistry).frozen = true ∧
      namesOf (freezeRegistry (freezeRegistry emptyRegistry)).components =
        namesOf (freezeRegistry emptyRegistry).components) := by
  refine ⟨⟨rfl, register_invariants.1 _ sampleXComp rfl⟩, ?_, ?_, ?_⟩
  · exact ⟨rfl, register_invariants.2.1 sampleAttach sampleXComp rfl
      ⟨sampleXComp, by decide, rfl⟩⟩
  · exact ⟨Relation.ReflTransGen.refl,
      register_invariants.2.2.1 emptyRegistry Relation.ReflTransGen.refl⟩
  · exact ⟨rfl, register_invariants.2.2.2 _ _ rfl (Step.freezeStep _)⟩

/-- C6 witness: the theorem applied to a registry that has "x" (immediate
attach) and to the empty registry (queued attach resolved by register). -/
theorem attachTo_resolution_witness :
    (findComp sampleAttach.components "x" = some sampleXComp ∧
      ∃ c2, findComp (attachTo sampleAttach ["x"] "doThing" 7).components "x" =
          some c2 ∧
        lookupKV c2.attachments "doThing" = some 7) ∧
    (findComp emptyRegistry.components "x" = none ∧
      emptyRegistry.frozen = false ∧
      (attachTo emptyRegistry ["x"] "doThing" 7).pendingAttachments =
        emptyRegistry.pendingAttachments ++ [(["x"], "doThing", 7)] ∧
      ∃ R2 c2, register (attachTo emptyRegistry ["x"] "doThing" 7) sampleXComp =
          Except.ok R2 ∧
        findComp R2.components "x" = some c2 ∧
        lookupKV c2.attachments "doThing" = some 7) := by
  have hfound : findComp sampleAttach.components "x" = some sampleXComp := by
    decide
  have ha := (attachTo_resolution sampleAttach "x" "doThing" 7).1
    sampleXComp hfound
  have hb := (attachTo_resolution emptyRegistry "x" "doThing" 7).2 rfl rfl
  exact ⟨⟨hfound, ha⟩, ⟨rfl, rfl, hb.1, hb.2 sampleXComp rfl⟩⟩

end Crux
